import Mathlib

/-!
Verification of the script-cache facade (`src/script/scriptcache.h`):
key derivation (`ComputeEntry`), the membership operations (`Get`, `Add`),
sizing (`setup_bytes`) and construction (nonce seeding).

The facade's collaborators (`CSHA256` from crypto/sha256.h, `GetRandHash`
from random.h, `CuckooCache::cache` from cuckoocache.h) are declared
outside this repository snapshot; they are modelled from the spec, as
noted on each definition. The facade itself is translated line by line
from `scriptcache.h`.
-/

set_option maxRecDepth 8192

namespace ScriptCache

/-- Little-endian serialization of a value into `k` bytes, as produced by
reading the raw memory of a `uint256` (via `begin()`) or of an
`unsigned int` on a little-endian machine. Only the low `8*k` bits are
captured, matching the fixed machine width. -/
def leBytes : Nat → Nat → List Nat
  | 0, _ => []
  | k + 1, v => v % 256 :: leBytes k (v / 256)

/-- Decoding of a little-endian byte list back into a value. -/
def ofLeBytes : List Nat → Nat
  | [] => 0
  | b :: bs => b + 256 * ofLeBytes bs

theorem leBytes_length (k v : Nat) : (leBytes k v).length = k := by
  induction k generalizing v with
  | zero => rfl
  | succ k ih => simp [leBytes, ih]

theorem ofLeBytes_leBytes (k v : Nat) : ofLeBytes (leBytes k v) = v % 256 ^ k := by
  induction k generalizing v with
  | zero => simp [leBytes, ofLeBytes, Nat.mod_one]
  | succ k ih =>
      simp only [leBytes, ofLeBytes, ih]
      rw [pow_succ, mul_comm (256 ^ k) 256, Nat.mod_mul]

theorem leBytes_injOn {k a b : Nat} (ha : a < 256 ^ k) (hb : b < 256 ^ k)
    (h : leBytes k a = leBytes k b) : a = b := by
  have := congrArg ofLeBytes h
  rwa [ofLeBytes_leBytes, ofLeBytes_leBytes, Nat.mod_eq_of_lt ha,
    Nat.mod_eq_of_lt hb] at this

/-- Modelled from the spec: `CSHA256` (declared in crypto/sha256.h, not in
this snapshot) is "a one-way hash function instance ... treated as an
opaque running-state object that is cheaply copyable". We model the
running state as the byte stream written into it so far; finalization is
an abstract function from byte streams to 256-bit outputs, passed as a
parameter `F` wherever a digest is produced. -/
structure CSHA256 where
  data : List Nat
deriving DecidableEq, Repr

def CSHA256.empty : CSHA256 := ⟨[]⟩

/-- `CSHA256::Write(p, len)`: appends `len` bytes to the running state. -/
def CSHA256.Write (h : CSHA256) (bs : List Nat) : CSHA256 := ⟨h.data ++ bs⟩

/-- `CSHA256::Finalize` under the abstract finalization `F`. -/
def CSHA256.Finalize (F : List Nat → Nat) (h : CSHA256) : Nat := F h.data

/-- Modelled from the spec: the bounded membership store
(`CuckooCache::cache`, cuckoocache.h, not in this snapshot), specified by
the collaborator contract: `insert` adds a key and may evict an existing
unrelated entry if full; `contains(key, erase)` is a membership test that
removes the entry when `erase` is true and the key is found; it never
returns a false positive. Keys are held newest-first; eviction drops the
entry at the tail. -/
structure CuckooCacheState where
  capacity : Nat
  elems : List Nat
deriving DecidableEq, Repr

def CuckooCacheState.empty (cap : Nat) : CuckooCacheState := ⟨cap, []⟩

/-- Modelled from the spec: "`insert(key)`: adds key; may evict an
existing unrelated entry if full". -/
def CuckooCacheState.insert (s : CuckooCacheState) (k : Nat) : CuckooCacheState :=
  if k ∈ s.elems then s
  else if s.elems.length < s.capacity then ⟨s.capacity, k :: s.elems⟩
  else ⟨s.capacity, k :: s.elems.dropLast⟩

/-- Modelled from the spec: "`contains(key, erase)`: membership test; if
`erase` is true and found, atomically removes it as part of the same
call". Returns the answer and the store afterwards. -/
def CuckooCacheState.contains (s : CuckooCacheState) (k : Nat) (erase : Bool) :
    Bool × CuckooCacheState :=
  if k ∈ s.elems then
    (true, if erase then ⟨s.capacity, s.elems.filter (fun e => e ≠ k)⟩ else s)
  else (false, s)

/-- The facade of scriptcache.h: a pre-seeded salted hasher plus a handle
to the bounded store. -/
structure CScriptCache where
  m_salted_hasher : CSHA256
  m_set_scripts : CuckooCacheState
deriving DecidableEq, Repr

/-- The constructor `CScriptCache()`. `GetRandHash()` (random.h, not in
this snapshot) is modelled from the spec as a parameter: "a 256-bit
random value generated once per process lifetime at facade
construction". The two `Write(nonce.begin(), 32)` calls are translated
directly. The store's capacity is a parameter of the model. -/
def CScriptCache.init (nonce : Nat) (cap : Nat) : CScriptCache :=
  { m_salted_hasher := (CSHA256.empty.Write (leBytes 32 nonce)).Write (leBytes 32 nonce)
    m_set_scripts := CuckooCacheState.empty cap }

/-- `CScriptCache::ComputeEntry(hash, flags)`: copies the salted hasher,
writes the 32 bytes of `hash` then the 4 bytes of `flags`, finalizes.
The method is `const`; we return the entry together with the facade
state after the call. -/
def CScriptCache.ComputeEntry (F : List Nat → Nat) (c : CScriptCache)
    (hash : Nat) (flags : Nat) : Nat × CScriptCache :=
  let hasher := c.m_salted_hasher
  let hasher := hasher.Write (leBytes 32 hash)
  let hasher := hasher.Write (leBytes 4 flags)
  (hasher.Finalize F, c)

/-- `CScriptCache::Get(entry, erase)`: delegates to the store. -/
def CScriptCache.Get (c : CScriptCache) (entry : Nat) (erase : Bool) :
    Bool × CScriptCache :=
  let r := c.m_set_scripts.contains entry erase
  (r.1, { c with m_set_scripts := r.2 })

/-- `CScriptCache::Add(entry)`: delegates to the store. -/
def CScriptCache.Add (c : CScriptCache) (entry : Nat) : CScriptCache :=
  { c with m_set_scripts := c.m_set_scripts.insert entry }

/-- `CScriptCache::setup_bytes(n)` delegates to the store's
`setup_bytes`. Modelled from the spec: "`setupBytes(n: byte budget) ->
uint32`: initializes internal storage to fit within `n` bytes and
returns the number of bytes actually committed"; entries are 32-byte
keys and the return value must fit in `uint32`. -/
def CuckooCacheState.setup_bytes (s : CuckooCacheState) (n : Nat) :
    Nat × CuckooCacheState :=
  let cap := min (n / 32) ((2 ^ 32 - 1) / 32)
  (32 * cap, ⟨cap, s.elems⟩)

def CScriptCache.setup_bytes (c : CScriptCache) (n : Nat) : Nat × CScriptCache :=
  let r := c.m_set_scripts.setup_bytes n
  (r.1, { c with m_set_scripts := r.2 })

/-- Spec-side definition (for the refinement claims): "SaltedHash: a
one-way hash whose input is implicitly prefixed with a secret random
value" — here the 64-byte doubled nonce. -/
def saltedHash (F : List Nat → Nat) (nonce : Nat) (msg : List Nat) : Nat :=
  F (leBytes 32 nonce ++ leBytes 32 nonce ++ msg)

/-- Spec-side definition: "CacheKey: a 256-bit value =
SaltedHash(contentHash(32 bytes) || flags(4 bytes, fixed little-endian
width))". -/
def cacheKeySpec (F : List Nat → Nat) (nonce : Nat) (hash flags : Nat) : Nat :=
  saltedHash F nonce (leBytes 32 hash ++ leBytes 4 flags)

/-- The exact byte stream fed to the finalization for a given nonce and
per-key input. -/
def hashInput (nonce hash flags : Nat) : List Nat :=
  leBytes 32 nonce ++ leBytes 32 nonce ++ (leBytes 32 hash ++ leBytes 4 flags)

/-- The operations a caller can perform on a constructed facade. -/
inductive CacheOp where
  | add : Nat → CacheOp
  | get : Nat → Bool → CacheOp
deriving DecidableEq, Repr

def applyOp (c : CScriptCache) : CacheOp → CScriptCache
  | .add k => c.Add k
  | .get k e => (c.Get k e).2

def applyOps (c : CScriptCache) (ops : List CacheOp) : CScriptCache :=
  ops.foldl applyOp c

/-- The keys passed to `Add` in a trace of operations. -/
def insertedKeys : List CacheOp → List Nat
  | [] => []
  | .add k :: rest => k :: insertedKeys rest
  | .get _ _ :: rest => insertedKeys rest

/-- The step `op`, run in state `c`, evicts or erases `k`: the key is in
the store before the step and gone after it. These are the only two ways
an entry leaves the store (see `removedAt_cases`). -/
def removedAt (c : CScriptCache) (op : CacheOp) (k : Nat) : Bool :=
  decide (k ∈ c.m_set_scripts.elems) &&
    !decide (k ∈ (applyOp c op).m_set_scripts.elems)

/-- `k` is not evicted or erased at any step of the trace run from `c`. -/
def survives (c : CScriptCache) (k : Nat) : List CacheOp → Bool
  | [] => true
  | op :: rest => !removedAt c op k && survives (applyOp c op) k rest

/-- `k` was passed to `Add` at some step of the trace run from `c` and
has not since been evicted or erased. -/
def liveSince (c : CScriptCache) (k : Nat) : List CacheOp → Bool
  | [] => false
  | op :: rest =>
      ((match op with
        | .add j => decide (j = k)
        | .get _ _ => false) && survives (applyOp c op) k rest)
      || liveSince (applyOp c op) k rest

theorem applyOp_salted_hasher (c : CScriptCache) (op : CacheOp) :
    (applyOp c op).m_salted_hasher = c.m_salted_hasher := by
  cases op <;> rfl

theorem applyOps_salted_hasher (ops : List CacheOp) (c : CScriptCache) :
    (applyOps c ops).m_salted_hasher = c.m_salted_hasher := by
  induction ops generalizing c with
  | nil => rfl
  | cons op rest ih =>
      show ((op :: rest).foldl applyOp c).m_salted_hasher = c.m_salted_hasher
      rw [List.foldl_cons]
      exact (ih (applyOp c op)).trans (applyOp_salted_hasher c op)

theorem computeEntry_eq_of_hasher (F : List Nat → Nat) (c c' : CScriptCache)
    (hash flags : Nat) (h : c'.m_salted_hasher = c.m_salted_hasher) :
    (c'.ComputeEntry F hash flags).1 = (c.ComputeEntry F hash flags).1 := by
  simp [CScriptCache.ComputeEntry, h]

/-- **C1.** `ComputeEntry` returns the salted hash of the 32-byte content
hash followed by the 4-byte little-endian flags: on a facade constructed
with nonce `nonce`, `ComputeEntry(hash, flags)` equals
`SaltedHash(leBytes 32 hash || leBytes 4 flags)`, and the two serialized
pieces have the fixed widths 32 and 4 bytes. -/
theorem computeEntry_eq_cacheKeySpec (F : List Nat → Nat)
    (nonce cap hash flags : Nat) :
    ((CScriptCache.init nonce cap).ComputeEntry F hash flags).1 =
      cacheKeySpec F nonce hash flags ∧
    (leBytes 32 hash).length = 32 ∧ (leBytes 4 flags).length = 4 := by
  refine ⟨?_, leBytes_length 32 hash, leBytes_length 4 flags⟩
  simp [CScriptCache.ComputeEntry, CScriptCache.init, CSHA256.Write,
    CSHA256.Finalize, CSHA256.empty, cacheKeySpec, saltedHash]

/-- **C2.** `ComputeEntry` is deterministic within one instance and
depends only on `(hash, flags)` and the instance's nonce: on any state
reached from `init nonce cap` by any trace of `Add`/`Get` operations,
`ComputeEntry(hash, flags)` always returns `cacheKeySpec F nonce hash
flags`; in particular any two such calls return identical keys. -/
theorem computeEntry_deterministic (F : List Nat → Nat)
    (nonce cap hash flags : Nat) (ops : List CacheOp) :
    ((applyOps (CScriptCache.init nonce cap) ops).ComputeEntry F hash flags).1 =
      cacheKeySpec F nonce hash flags := by
  rw [computeEntry_eq_of_hasher F (CScriptCache.init nonce cap) _ hash flags
    (applyOps_salted_hasher ops _)]
  exact (computeEntry_eq_cacheKeySpec F nonce cap hash flags).1

/-- **C3.** Construction writes the fresh 256-bit nonce into the salted
hash state twice, each time as one 32-byte chunk, so exactly 64 bytes of
nonce material are in the state before any per-key input is hashed (the
store starts empty, so no dynamic input has been written). -/
theorem init_nonce_seeding (nonce cap : Nat) :
    (CScriptCache.init nonce cap).m_salted_hasher.data =
      leBytes 32 nonce ++ leBytes 32 nonce ∧
    (leBytes 32 nonce).length = 32 ∧
    (CScriptCache.init nonce cap).m_salted_hasher.data.length = 64 ∧
    (CScriptCache.init nonce cap).m_set_scripts = CuckooCacheState.empty cap := by
  refine ⟨by simp [CScriptCache.init, CSHA256.Write, CSHA256.empty],
    leBytes_length 32 nonce, ?_, rfl⟩
  simp [CScriptCache.init, CSHA256.Write, CSHA256.empty, leBytes_length]

/-- **C7.** `ComputeEntry` leaves all shared state unchanged: after the
call the salted hash state and the bounded store are exactly what they
were before, and the result reads only the pre-seeded hash state (any
facade with the same `m_salted_hasher` yields the same key, whatever its
store holds). -/
theorem computeEntry_frame (F : List Nat → Nat) (c : CScriptCache)
    (hash flags : Nat) :
    (c.ComputeEntry F hash flags).2.m_salted_hasher = c.m_salted_hasher ∧
    (c.ComputeEntry F hash flags).2.m_set_scripts = c.m_set_scripts ∧
    ∀ c' : CScriptCache, c'.m_salted_hasher = c.m_salted_hasher →
      (c'.ComputeEntry F hash flags).1 = (c.ComputeEntry F hash flags).1 :=
  ⟨rfl, rfl, fun c' h => computeEntry_eq_of_hasher F c c' hash flags h⟩

theorem mem_insert_self (s : CuckooCacheState) (k : Nat) :
    k ∈ (s.insert k).elems := by
  unfold CuckooCacheState.insert
  split
  · assumption
  · split <;> exact List.mem_cons_self k _

theorem mem_of_mem_insert {s : CuckooCacheState} {k x : Nat}
    (h : x ∈ (s.insert k).elems) : x = k ∨ x ∈ s.elems := by
  unfold CuckooCacheState.insert at h
  split at h
  · exact Or.inr h
  · split at h <;> rcases List.mem_cons.mp h with h | h
    · exact Or.inl h
    · exact Or.inr h
    · exact Or.inl h
    · exact Or.inr (List.mem_of_mem_dropLast h)

theorem contains_fst (s : CuckooCacheState) (k : Nat) (er : Bool) :
    (s.contains k er).1 = true ↔ k ∈ s.elems := by
  unfold CuckooCacheState.contains
  split <;> simp_all

theorem mem_of_mem_contains_snd {s : CuckooCacheState} {k er x}
    (h : x ∈ (s.contains k er).2.elems) : x ∈ s.elems := by
  unfold CuckooCacheState.contains at h
  split at h
  · split at h
    · exact List.mem_of_mem_filter h
    · exact h
  · exact h

theorem contains_false_snd (s : CuckooCacheState) (k : Nat) :
    (s.contains k false).2 = s := by
  unfold CuckooCacheState.contains
  split <;> rfl

theorem applyOps_elems_subset (ops : List CacheOp) (c : CScriptCache) :
    ∀ x ∈ (applyOps c ops).m_set_scripts.elems,
      x ∈ c.m_set_scripts.elems ∨ x ∈ insertedKeys ops := by
  induction ops generalizing c with
  | nil => exact fun x hx => Or.inl hx
  | cons op rest ih =>
      intro x hx
      have hx' := ih (applyOp c op) x hx
      cases op with
      | add k =>
          rcases hx' with hx' | hx'
          · rcases mem_of_mem_insert hx' with h | h
            · exact Or.inr (by simp [insertedKeys, h])
            · exact Or.inl h
          · exact Or.inr (by simp [insertedKeys, hx'])
      | get k e =>
          rcases hx' with hx' | hx'
          · exact Or.inl (mem_of_mem_contains_snd hx')
          · exact Or.inr hx'

theorem liveSince_imp_inserted (ops : List CacheOp) (c : CScriptCache) (k : Nat)
    (h : liveSince c k ops = true) : k ∈ insertedKeys ops := by
  induction ops generalizing c with
  | nil => simp [liveSince] at h
  | cons op rest ih =>
      simp only [liveSince, Bool.or_eq_true, Bool.and_eq_true] at h
      rcases h with ⟨hop, _⟩ | h
      · cases op with
        | add j =>
            simp only [decide_eq_true_eq] at hop
            subst hop
            exact List.mem_cons_self _ _
        | get j e => simp at hop
      · cases op with
        | add j => exact List.mem_cons_of_mem j (ih _ h)
        | get j e => exact ih _ h

/-- A key present in the final store is live: either some `Add k` in the
trace is followed by no removing step, or the key was present at the
start and no step of the trace removed it. -/
theorem mem_applyOps_elems (ops : List CacheOp) (c : CScriptCache) (k : Nat)
    (h : k ∈ (applyOps c ops).m_set_scripts.elems) :
    liveSince c k ops = true ∨
      (k ∈ c.m_set_scripts.elems ∧ survives c k ops = true) := by
  induction ops generalizing c with
  | nil => exact Or.inr ⟨h, rfl⟩
  | cons op rest ih =>
      have h' : k ∈ (applyOps (applyOp c op) rest).m_set_scripts.elems := h
      rcases ih (applyOp c op) h' with hl | ⟨hm, hs⟩
      · left
        simp [liveSince, hl]
      · cases op with
        | add j =>
            by_cases hjk : j = k
            · left
              subst hjk
              simp [liveSince, hs]
            · right
              have hmc : k ∈ c.m_set_scripts.elems := by
                rcases mem_of_mem_insert hm with h1 | h1
                · exact absurd h1.symm hjk
                · exact h1
              have hrm : removedAt c (.add j) k = false := by
                simp [removedAt, hm]
              exact ⟨hmc, by simp [survives, hrm, hs]⟩
        | get j e =>
            right
            have hmc : k ∈ c.m_set_scripts.elems := mem_of_mem_contains_snd hm
            have hrm : removedAt c (.get j e) k = false := by
              simp [removedAt, hm]
            exact ⟨hmc, by simp [survives, hrm, hs]⟩

/-- The only steps that remove a key from the store are an erase-on-hit
query for that key and an insertion of a different key into a full
store (an eviction). -/
theorem removedAt_cases (c : CScriptCache) (op : CacheOp) (k : Nat)
    (h : removedAt c op k = true) :
    op = CacheOp.get k true ∨
      ∃ j, op = CacheOp.add j ∧ j ≠ k ∧
        c.m_set_scripts.capacity ≤ c.m_set_scripts.elems.length := by
  simp only [removedAt, Bool.and_eq_true, Bool.not_eq_true', decide_eq_true_eq,
    decide_eq_false_iff_not] at h
  obtain ⟨hin, hout⟩ := h
  cases op with
  | add j =>
      right
      refine ⟨j, rfl, ?_, ?_⟩
      · intro hjk
        subst hjk
        exact hout (mem_insert_self _ j)
      · have hnot : j ∉ c.m_set_scripts.elems := by
          intro hj
          exact hout (by simpa [applyOp, CScriptCache.Add,
            CuckooCacheState.insert, hj] using hin)
        by_contra hlt
        push_neg at hlt
        exact hout (by simp [applyOp, CScriptCache.Add,
          CuckooCacheState.insert, hnot, hlt, List.mem_cons, hin])
  | get j e =>
      left
      have hout' : k ∉ (c.m_set_scripts.contains j e).2.elems := hout
      unfold CuckooCacheState.contains at hout'
      by_cases hj : j ∈ c.m_set_scripts.elems
      · rw [if_pos hj] at hout'
        cases e with
        | false => simp at hout'; exact absurd hin hout'
        | true =>
            simp only [if_pos rfl] at hout'
            have : k = j := by
              by_contra hkj
              exact hout' (List.mem_filter.mpr ⟨hin, by simpa using hkj⟩)
            subst this
            rfl
      · rw [if_neg hj] at hout'
        exact absurd hin hout'

/-- **C4.** `Get` never returns a false positive: on any state reachable
from a freshly constructed facade by a trace of operations, `Get(k, er)`
returns true only if `k` was passed to `Add` somewhere in the trace and
has not since been evicted or erased (some `Add k` step is followed by no
step that removes `k`, where a removing step is necessarily an
erase-on-hit `Get(k, true)` or an eviction caused by inserting into a
full store); in particular, for a key never inserted,
`Get(k, erase := false)` returns false. -/
theorem get_no_false_positive (nonce cap : Nat) (ops : List CacheOp)
    (k : Nat) (er : Bool) :
    (((applyOps (CScriptCache.init nonce cap) ops).Get k er).1 = true →
      k ∈ insertedKeys ops ∧
      liveSince (CScriptCache.init nonce cap) k ops = true) ∧
    (k ∉ insertedKeys ops →
      ((applyOps (CScriptCache.init nonce cap) ops).Get k false).1 = false) ∧
    (∀ (c : CScriptCache) (op : CacheOp), removedAt c op k = true →
      op = CacheOp.get k true ∨
        ∃ j, op = CacheOp.add j ∧ j ≠ k ∧
          c.m_set_scripts.capacity ≤ c.m_set_scripts.elems.length) := by
  have key : ∀ er', ((applyOps (CScriptCache.init nonce cap) ops).Get k er').1 = true →
      liveSince (CScriptCache.init nonce cap) k ops = true := by
    intro er' htrue
    have hk : k ∈ (applyOps (CScriptCache.init nonce cap) ops).m_set_scripts.elems :=
      (contains_fst _ k er').mp htrue
    rcases mem_applyOps_elems ops (CScriptCache.init nonce cap) k hk with hl | ⟨hm, _⟩
    · exact hl
    · simp [CScriptCache.init, CuckooCacheState.empty] at hm
  refine ⟨fun htrue => ?_, fun hnotin => ?_, fun c op h => removedAt_cases c op k h⟩
  · have hl := key er htrue
    exact ⟨liveSince_imp_inserted ops _ k hl, hl⟩
  · by_contra hne
    have htrue : ((applyOps (CScriptCache.init nonce cap) ops).Get k false).1 = true := by
      revert hne
      cases ((applyOps (CScriptCache.init nonce cap) ops).Get k false).1 <;> simp
    exact hnotin (liveSince_imp_inserted ops _ k (key false htrue))

/-- **C5.** Round-trip and idempotence of the non-consuming query:
immediately after `Add k`, `Get(k, erase := false)` returns true, and a
second `Get(k, erase := false)` on the state after the first still
returns true. -/
theorem add_get_roundtrip (c : CScriptCache) (k : Nat) :
    ((c.Add k).Get k false).1 = true ∧
    ((((c.Add k).Get k false).2).Get k false).1 = true := by
  have hmem : k ∈ (c.Add k).m_set_scripts.elems := mem_insert_self _ k
  have h1 : ((c.Add k).Get k false).1 = true := (contains_fst _ k false).mpr hmem
  refine ⟨h1, ?_⟩
  have hst : (((c.Add k).Get k false).2).m_set_scripts = (c.Add k).m_set_scripts := by
    show ((c.Add k).m_set_scripts.contains k false).2 = _
    exact contains_false_snd _ k
  show ((((c.Add k).Get k false).2).m_set_scripts.contains k false).1 = true
  rw [hst]
  exact (contains_fst _ k false).mpr hmem

/-- **C6.** Erase-on-hit: immediately after `Add k`, `Get(k, erase :=
true)` returns true and removes the entry in the same call, so an
immediately following `Get(k, erase := false)` returns false. -/
theorem add_get_erase (c : CScriptCache) (k : Nat) :
    ((c.Add k).Get k true).1 = true ∧
    ((((c.Add k).Get k true).2).Get k false).1 = false := by
  have hmem : k ∈ (c.Add k).m_set_scripts.elems := mem_insert_self _ k
  refine ⟨(contains_fst _ k true).mpr hmem, ?_⟩
  have hout : k ∉ (((c.Add k).Get k true).2).m_set_scripts.elems := by
    show k ∉ ((c.Add k).m_set_scripts.contains k true).2.elems
    simp [CuckooCacheState.contains, hmem, List.mem_filter]
  show ((((c.Add k).Get k true).2).m_set_scripts.contains k false).1 = false
  simp [CuckooCacheState.contains, hout]

/-- **C9.** `setup_bytes n` returns a committed byte count that is
nonnegative by type, never exceeds the budget `n`, always fits in a
`uint32` (no overflow from the `size_t` budget), and is monotonically
non-decreasing in `n`. -/
theorem setup_bytes_bounds (c : CScriptCache) (n m : Nat) :
    (c.setup_bytes n).1 ≤ n ∧
    (c.setup_bytes n).1 < 2 ^ 32 ∧
    (n ≤ m → (c.setup_bytes n).1 ≤ (c.setup_bytes m).1) := by
  refine ⟨?_, ?_, ?_⟩
  · show 32 * min (n / 32) ((2 ^ 32 - 1) / 32) ≤ n
    calc 32 * min (n / 32) ((2 ^ 32 - 1) / 32) ≤ 32 * (n / 32) :=
          Nat.mul_le_mul_left 32 (min_le_left _ _)
      _ ≤ n := by rw [Nat.mul_comm]; exact Nat.div_mul_le_self n 32
  · show 32 * min (n / 32) ((2 ^ 32 - 1) / 32) < 2 ^ 32
    calc 32 * min (n / 32) ((2 ^ 32 - 1) / 32) ≤ 32 * ((2 ^ 32 - 1) / 32) :=
          Nat.mul_le_mul_left 32 (min_le_right _ _)
      _ ≤ 2 ^ 32 - 1 := by rw [Nat.mul_comm]; exact Nat.div_mul_le_self _ 32
      _ < 2 ^ 32 := by norm_num
  · intro hnm
    show 32 * min (n / 32) ((2 ^ 32 - 1) / 32) ≤
      32 * min (m / 32) ((2 ^ 32 - 1) / 32)
    exact Nat.mul_le_mul_left 32
      (min_le_min (Nat.div_le_div_right hnm) le_rfl)

theorem pow_256_32 : (256 : Nat) ^ 32 = 2 ^ 256 := by norm_num

theorem pow_256_4 : (256 : Nat) ^ 4 = 2 ^ 32 := by norm_num

theorem computeEntry_init_eq_hashInput (F : List Nat → Nat)
    (nonce cap hash flags : Nat) :
    ((CScriptCache.init nonce cap).ComputeEntry F hash flags).1 =
      F (hashInput nonce hash flags) := by
  simp [CScriptCache.ComputeEntry, CScriptCache.init, CSHA256.Write,
    CSHA256.Finalize, CSHA256.empty, hashInput]

theorem hashInput_nonce_inj {n1 n2 : Nat} (hb1 : n1 < 2 ^ 256)
    (hb2 : n2 < 2 ^ 256) (hash flags : Nat)
    (he : hashInput n1 hash flags = hashInput n2 hash flags) : n1 = n2 := by
  have hlen2 : (leBytes 32 n1 ++ leBytes 32 n1).length =
      (leBytes 32 n2 ++ leBytes 32 n2).length := by
    simp [leBytes_length]
  have hdbl := (List.append_inj he hlen2).1
  have hlen : (leBytes 32 n1).length = (leBytes 32 n2).length := by
    rw [leBytes_length, leBytes_length]
  have h1 := (List.append_inj hdbl hlen).1
  rw [← pow_256_32] at hb1 hb2
  exact leBytes_injOn hb1 hb2 h1

/-- **C8.** Cross-instance unpredictability: two facades constructed with
different nonces feed different byte streams to the finalization for the
same `(hash, flags)`, so their keys differ whenever the finalization does
not collide on those two streams; moreover for each nonce of the first
instance, exactly 1 of the `2 ^ 256` possible nonces of the second
instance produces a colliding stream (the keys differ except with
probability `2 ^ (-256)` over the second fresh nonce). -/
theorem computeEntry_cross_instance (F : List Nat → Nat)
    (n1 n2 c1 c2 hash flags : Nat) (hb1 : n1 < 2 ^ 256) (hb2 : n2 < 2 ^ 256)
    (hne : n1 ≠ n2)
    (hcoll : F (hashInput n1 hash flags) = F (hashInput n2 hash flags) →
      hashInput n1 hash flags = hashInput n2 hash flags) :
    ((CScriptCache.init n1 c1).ComputeEntry F hash flags).1 ≠
      ((CScriptCache.init n2 c2).ComputeEntry F hash flags).1 ∧
    ∀ m1 : Fin (2 ^ 256),
      (Finset.univ.filter fun m2 : Fin (2 ^ 256) =>
        hashInput m1.1 hash flags = hashInput m2.1 hash flags).card = 1 := by
  constructor
  · intro hkey
    rw [computeEntry_init_eq_hashInput, computeEntry_init_eq_hashInput] at hkey
    exact hne (hashInput_nonce_inj hb1 hb2 hash flags (hcoll hkey))
  · intro m1
    have hset : (Finset.univ.filter fun m2 : Fin (2 ^ 256) =>
        hashInput m1.1 hash flags = hashInput m2.1 hash flags) = {m1} := by
      ext m2
      simp only [Finset.mem_filter, Finset.mem_univ, true_and,
        Finset.mem_singleton]
      constructor
      · intro hEq
        exact (Fin.ext (hashInput_nonce_inj m1.2 m2.2 hash flags hEq)).symm
      · intro hEq
        rw [hEq]
    rw [hset, Finset.card_singleton]

/-- **C10.** The per-key input encoding is injective: for machine-range
inputs, two distinct `(hash, flags)` pairs produce distinct 36-byte
sequences `leBytes 32 hash ++ leBytes 4 flags`, hence the full byte
streams written into the copied hasher under any common nonce differ, so
equal cache keys for distinct pairs require a collision of the
finalization function itself. -/
theorem perkey_encoding_injective (h1 f1 h2 f2 : Nat)
    (hh1 : h1 < 2 ^ 256) (hh2 : h2 < 2 ^ 256)
    (hf1 : f1 < 2 ^ 32) (hf2 : f2 < 2 ^ 32)
    (hne : (h1, f1) ≠ (h2, f2)) :
    leBytes 32 h1 ++ leBytes 4 f1 ≠ leBytes 32 h2 ++ leBytes 4 f2 ∧
    ∀ nonce, hashInput nonce h1 f1 ≠ hashInput nonce h2 f2 := by
  have hmsg : leBytes 32 h1 ++ leBytes 4 f1 ≠ leBytes 32 h2 ++ leBytes 4 f2 := by
    intro he
    have hlen : (leBytes 32 h1).length = (leBytes 32 h2).length := by
      rw [leBytes_length, leBytes_length]
    have hpair := List.append_inj he hlen
    rw [← pow_256_32] at hh1 hh2
    rw [← pow_256_4] at hf1 hf2
    exact hne (Prod.ext (leBytes_injOn hh1 hh2 hpair.1)
      (leBytes_injOn hf1 hf2 hpair.2))
  refine ⟨hmsg, fun nonce he => hmsg ?_⟩
  unfold hashInput at he
  exact List.append_cancel_left he

theorem get_no_false_positive_witness :
    (3 ∈ insertedKeys [CacheOp.add 3, CacheOp.get 5 false] ∧
      liveSince (CScriptCache.init 0 5) 3 [CacheOp.add 3, CacheOp.get 5 false] = true) ∧
    (((applyOps (CScriptCache.init 0 5) [CacheOp.add 3, CacheOp.get 5 false]).Get 7 false).1
      = false) ∧
    (CacheOp.get 3 true = CacheOp.get 3 true ∨
      ∃ j, CacheOp.get 3 true = CacheOp.add j ∧ j ≠ 3 ∧
        ((CScriptCache.init 0 5).Add 3).m_set_scripts.capacity ≤
          ((CScriptCache.init 0 5).Add 3).m_set_scripts.elems.length) :=
  ⟨(get_no_false_positive 0 5 [CacheOp.add 3, CacheOp.get 5 false] 3 false).1 (by decide),
   (get_no_false_positive 0 5 [CacheOp.add 3, CacheOp.get 5 false] 7 false).2.1 (by decide),
   (get_no_false_positive 0 5 [CacheOp.add 3, CacheOp.get 5 false] 3 false).2.2
     ((CScriptCache.init 0 5).Add 3) (CacheOp.get 3 true) (by decide)⟩

theorem computeEntry_frame_witness :
    (((CScriptCache.init 7 5).Add 3).ComputeEntry ofLeBytes 1 2).1 =
      ((CScriptCache.init 7 5).ComputeEntry ofLeBytes 1 2).1 :=
  (computeEntry_frame ofLeBytes (CScriptCache.init 7 5) 1 2).2.2
    ((CScriptCache.init 7 5).Add 3) rfl

theorem computeEntry_cross_instance_witness :
    ((CScriptCache.init 0 3).ComputeEntry ofLeBytes 5 7).1 ≠
      ((CScriptCache.init 1 3).ComputeEntry ofLeBytes 5 7).1 ∧
    ∀ m1 : Fin (2 ^ 256),
      (Finset.univ.filter fun m2 : Fin (2 ^ 256) =>
        hashInput m1.1 5 7 = hashInput m2.1 5 7).card = 1 :=
  computeEntry_cross_instance ofLeBytes 0 1 3 3 5 7 (by decide) (by decide)
    (by decide) (fun hEq => absurd hEq (by decide))

theorem setup_bytes_bounds_witness :
    ((CScriptCache.init 0 4).setup_bytes 64).1 ≤ 64 ∧
    ((CScriptCache.init 0 4).setup_bytes 64).1 < 2 ^ 32 ∧
    ((CScriptCache.init 0 4).setup_bytes 64).1 ≤
      ((CScriptCache.init 0 4).setup_bytes 128).1 :=
  ⟨(setup_bytes_bounds (CScriptCache.init 0 4) 64 128).1,
   (setup_bytes_bounds (CScriptCache.init 0 4) 64 128).2.1,
   (setup_bytes_bounds (CScriptCache.init 0 4) 64 128).2.2 (by decide)⟩

theorem perkey_encoding_injective_witness :
    leBytes 32 1 ++ leBytes 4 2 ≠ leBytes 32 1 ++ leBytes 4 3 ∧
    ∀ nonce, hashInput nonce 1 2 ≠ hashInput nonce 1 3 :=
  perkey_encoding_injective 1 2 1 3 (by decide) (by decide) (by decide)
    (by decide) (by decide)

end ScriptCache
